import Mathlib

/-!
# Verification of the storage-api filesystem indexing and caching engine

A shallow embedding of the Go sources of the storage-api repository
(local path-safe driver, hidden/junk filters, recursive index walker,
SQLite-backed search index, TTL read cache, duplicate naming) together
with proofs about the embedded definitions.

Machine integers of the source (Go int, int64) are modelled as Int;
timestamps (time.Time) as Int seconds; byte strings as String.
Filesystem and database effects are modelled by explicit state passing:
the SQLite table is a list of rows, the directory tree an inductive
tree, and fallible SQL steps are driven by an explicit failure oracle.
Mount roots are absolute paths (the configuration maps each storage
name to an absolute root directory), so path cleaning is modelled for
rooted paths.
-/

/-! ## Character and string helpers

Go operates on strings; we mirror the string-level operations the
source uses (strings.HasPrefix, strings.ToLower, path splitting on the
separator) on the underlying character lists. -/

/-- strings.HasPrefix s p -/
def strStarts (s p : String) : Bool := p.data.isPrefixOf s.data

/-- Suffix test on strings (used to model the denylist regex, whose second
alternative is anchored only at the end). -/
def strEnds (s p : String) : Bool := p.data.isSuffixOf s.data

/-- strings.ToLower for ASCII input (extensions and storage names in this
system are ASCII). -/
def lowerStr (s : String) : String := String.mk (s.data.map Char.toLower)

/-- Split a character list at every separator (the splitting underlying
filepath cleaning: "a//b" gives ["a", "", "b"]). -/
def splitChars (p : Char → Bool) : List Char → List (List Char)
  | [] => [[]]
  | c :: cs =>
    let r := splitChars p cs
    if p c then [] :: r
    else
      match r with
      | [] => [[c]]
      | g :: gs => (c :: g) :: gs

/-! ## Path cleaning, joining and Rel (path/filepath, as used by the driver)

filepath.Clean on a rooted path: split on the separator, drop empty and
"." segments, resolve ".." against the segment stack (".." above the
root is discarded).  filepath.Join(a, b) is Clean(a + "/" + b).
filepath.Rel(base, targ) on cleaned rooted paths: strip the longest
common segment prefix, emit one ".." per remaining base segment followed
by the remaining target segments. -/

/-- The segments of a path string: split on the separator, dropping empty
segments and "." segments. -/
def rawSegs (s : String) : List (List Char) :=
  (splitChars (fun c => c = '/') s.data).filter (fun g => !g.isEmpty && g ≠ ['.'])

/-- Resolve ".." segments against a stack, rooted semantics: ".." at the
root is discarded. -/
def resolveDots (segs : List (List Char)) : List (List Char) :=
  segs.foldl (fun acc g => if g = ['.', '.'] then acc.dropLast else acc ++ [g]) []

/-- Rebuild a rooted path string from its segments. -/
def mkAbs (segs : List (List Char)) : String :=
  String.mk ('/' :: List.intercalate ['/'] segs)

/-- filepath.Clean for a rooted path. -/
def goClean (s : String) : String := mkAbs (resolveDots (rawSegs s))

/-- filepath.Join(a, b) for a rooted first argument: Clean(a + "/" + b). -/
def goJoin (a b : String) : String := goClean (a ++ "/" ++ b)

/-- Length of the longest common segment prefix (filepath.Rel's scan). -/
def commonLen : List (List Char) → List (List Char) → Nat
  | a :: as, b :: bs => if a = b then commonLen as bs + 1 else 0
  | _, _ => 0

/-- The segments of filepath.Rel(base, targ) on cleaned rooted paths. -/
def relSegs (bs ts : List (List Char)) : List (List Char) :=
  List.replicate (bs.length - commonLen bs ts) ['.', '.'] ++ ts.drop (commonLen bs ts)

/-- filepath.Rel(base, targ) for cleaned rooted inputs ("." when equal). -/
def goRel (base targ : String) : String :=
  match relSegs (resolveDots (rawSegs base)) (resolveDots (rawSegs targ)) with
  | [] => "."
  | segs => String.mk (List.intercalate ['/'] segs)

/-! ## The driver's storage lookup and path validation
(internal/infra/filesystem local driver: getStorageRoot, validatePath) -/

inductive PathError where
  | storageNotFound : PathError
  | pathEscape : PathError
deriving DecidableEq, Repr

deriving instance DecidableEq for Except

/-- getStorageRoot: case-insensitive lookup of the mount root, returning
the cleaned root path. -/
def getStorageRoot (mounts : List (String × String)) (storageName : String) :
    Except PathError String :=
  match mounts.find? (fun kv => lowerStr kv.1 = lowerStr storageName) with
  | some kv => .ok (goClean kv.2)
  | none => .error .storageNotFound

/-- validatePath: join the subpath onto the root, clean, and fail when the
relative path from the root to the cleaned result starts with "..". -/
def validatePath (mounts : List (String × String)) (storageName subPath : String) :
    Except PathError String :=
  match getStorageRoot mounts storageName with
  | .error e => .error e
  | .ok rootPath =>
    let fullPath := goJoin rootPath subPath
    let cleanPath := goClean fullPath
    let rel := goRel rootPath cleanPath
    if strStarts rel ".." then .error .pathEscape else .ok cleanPath

/-- Follows the claim's words: the cleaned join "stays within the root" when
the root's segments are a segment prefix of the path's segments (the path is
the root itself or a descendant of it). -/
def staysWithinRoot (root p : String) : Bool :=
  (resolveDots (rawSegs root)).isPrefixOf (resolveDots (rawSegs p))

/-! ### Sanity checks for the path machinery -/

example : goClean "/mnt/a" = "/mnt/a" := by decide
example : goJoin "/mnt/a" "../../etc" = "/etc" := by decide
example : goJoin "/mnt/a" "/etc/passwd" = "/mnt/a/etc/passwd" := by decide
example : goJoin "/mnt/a" "docs/../x" = "/mnt/a/x" := by decide
example : goRel "/mnt/a" "/etc" = "../../etc" := by decide
example : goRel "/mnt/a" "/mnt/a/b" = "b" := by decide
example : goRel "/mnt/a" "/mnt/a" = "." := by decide
example : validatePath [("a", "/mnt/a")] "a" "../../etc" = .error .pathEscape := by decide
example : validatePath [("a", "/mnt/a")] "A" "x/y" = .ok "/mnt/a/x/y" := by decide
example : validatePath [("a", "/mnt/a")] "b" "x" = .error .storageNotFound := by decide
example : validatePath [("a", "/mnt/a")] "a" "..foo" = .error .pathEscape := by decide
example : staysWithinRoot "/mnt/a" "/mnt/a/..foo" = true := by decide

/-! ### Lemmas about splitting -/

theorem splitChars_ne_nil (p : Char → Bool) (l : List Char) : splitChars p l ≠ [] := by
  induction l with
  | nil => simp [splitChars]
  | cons c cs ih =>
    simp only [splitChars]
    by_cases hp : p c
    · simp [hp]
    · simp only [hp, if_neg]
      cases hr : splitChars p cs with
      | nil => exact absurd hr ih
      | cons g gs => simp

theorem splitChars_sep_free (p : Char → Bool) (l : List Char) :
    ∀ g ∈ splitChars p l, ∀ c ∈ g, p c = false := by
  induction l with
  | nil =>
    intro g hg c hc
    simp [splitChars] at hg
    subst hg
    simp at hc
  | cons x xs ih =>
    intro g hg c hc
    simp only [splitChars] at hg
    by_cases hp : p x
    · simp only [hp, if_pos] at hg
      rcases List.mem_cons.mp hg with h | h
      · subst h; simp at hc
      · exact ih g h c hc
    · simp only [hp, if_neg, Bool.false_eq_true, not_false_iff] at hg
      cases hr : splitChars p xs with
      | nil => exact absurd hr (splitChars_ne_nil p xs)
      | cons g0 gs =>
        rw [hr] at hg
        rcases List.mem_cons.mp hg with h | h
        · subst h
          rcases List.mem_cons.mp hc with h | h
          · subst h; exact Bool.eq_false_iff.mpr hp
          · exact ih g0 (hr ▸ List.mem_cons_self g0 gs) c h
        · exact ih g (hr ▸ List.mem_cons_of_mem g0 h) c hc

theorem splitChars_append (p : Char → Bool) (c : Char) (hc : p c = true) (ys : List Char) :
    ∀ xs, splitChars p (xs ++ c :: ys) = splitChars p xs ++ splitChars p ys := by
  intro xs
  induction xs with
  | nil => simp [splitChars, hc]
  | cons x xs ih =>
    show splitChars p (x :: (xs ++ c :: ys)) = splitChars p (x :: xs) ++ splitChars p ys
    simp only [splitChars]
    by_cases hx : p x
    · simp only [hx, if_pos]
      rw [ih]
      rfl
    · simp only [hx, if_neg, Bool.false_eq_true, not_false_iff]
      cases hr : splitChars p xs with
      | nil => exact absurd hr (splitChars_ne_nil p xs)
      | cons g gs =>
        rw [ih, hr]
        rfl

theorem splitChars_all_sep_free (p : Char → Bool) (l : List Char)
    (h : ∀ c ∈ l, p c = false) : splitChars p l = [l] := by
  induction l with
  | nil => simp [splitChars]
  | cons x xs ih =>
    have hx : p x = false := h x (List.mem_cons_self x xs)
    have hxs : splitChars p xs = [xs] := ih (fun c hc => h c (List.mem_cons_of_mem x hc))
    simp [splitChars, hx, hxs]

theorem intercalate_one (s g : List Char) : List.intercalate s [g] = g := by
  simp [List.intercalate, List.intersperse]

theorem intercalate_two (s g h : List Char) (t : List (List Char)) :
    List.intercalate s (g :: h :: t) = g ++ s ++ List.intercalate s (h :: t) := by
  simp [List.intercalate, List.intersperse]

theorem splitChars_intercalate (p : Char → Bool) (c : Char) (hc : p c = true) :
    ∀ segs : List (List Char), segs ≠ [] → (∀ g ∈ segs, ∀ d ∈ g, p d = false) →
    splitChars p (List.intercalate [c] segs) = segs := by
  intro segs
  induction segs with
  | nil => intro h; exact absurd rfl h
  | cons g gs ih =>
    intro _ hwf
    cases gs with
    | nil =>
      rw [intercalate_one]
      exact splitChars_all_sep_free p g (hwf g (List.mem_cons_self g []))
    | cons h t =>
      rw [intercalate_two]
      have : g ++ [c] ++ List.intercalate [c] (h :: t) =
          g ++ c :: List.intercalate [c] (h :: t) := by simp
      rw [this, splitChars_append p c hc _ g,
        splitChars_all_sep_free p g (hwf g (List.mem_cons_self g _)),
        ih (by simp) (fun x hx d hd => hwf x (List.mem_cons_of_mem g hx) d hd)]
      simp

/-! ### Lemmas about dot resolution -/

theorem resolveDots_mem (l : List (List Char)) :
    ∀ g ∈ resolveDots l, g ∈ l ∧ g ≠ ['.', '.'] := by
  suffices h : ∀ (l acc : List (List Char)), ∀ g ∈ List.foldl
      (fun acc g => if g = ['.', '.'] then acc.dropLast else acc ++ [g]) acc l,
      g ∈ acc ∨ (g ∈ l ∧ g ≠ ['.', '.']) by
    intro g hg
    rcases h l [] g hg with h' | h'
    · simp at h'
    · exact h'
  intro l
  induction l with
  | nil => intro acc g hg; exact Or.inl hg
  | cons x xs ih =>
    intro acc g hg
    simp only [List.foldl_cons] at hg
    rcases ih _ g hg with h' | h'
    · by_cases hx : x = ['.', '.']
      · rw [if_pos hx] at h'
        exact Or.inl (List.dropLast_sublist acc |>.subset h')
      · rw [if_neg hx] at h'
        rcases List.mem_append.mp h' with h'' | h''
        · exact Or.inl h''
        · simp only [List.mem_singleton] at h''
          subst h''
          exact Or.inr ⟨List.mem_cons_self g xs, hx⟩
    · exact Or.inr ⟨List.mem_cons_of_mem x h'.1, h'.2⟩

theorem resolveDots_no_dd (l : List (List Char)) (h : ['.', '.'] ∉ l) :
    resolveDots l = l := by
  suffices hh : ∀ acc, List.foldl
      (fun acc g => if g = ['.', '.'] then acc.dropLast else acc ++ [g]) acc l = acc ++ l by
    have := hh []
    simpa [resolveDots] using this
  induction l with
  | nil => intro acc; simp
  | cons x xs ih =>
    intro acc
    have hx : x ≠ ['.', '.'] := fun he => h (he ▸ List.mem_cons_self x xs)
    simp only [List.foldl_cons, if_neg hx]
    rw [ih (fun he => h (List.mem_cons_of_mem x he))]
    simp

/-! ### Well-formedness of segments and the clean/split round trip -/

/-- Segments produced by path splitting: nonempty, not ".", no separator. -/
def wfSeg (g : List Char) : Prop := g ≠ [] ∧ g ≠ ['.'] ∧ '/' ∉ g

theorem rawSegs_wf (s : String) : ∀ g ∈ rawSegs s, wfSeg g := by
  intro g hg
  unfold rawSegs at hg
  have hmem := List.mem_of_mem_filter hg
  have hpred := List.of_mem_filter hg
  simp only [Bool.and_eq_true, Bool.not_eq_true', List.isEmpty_eq_false,
    decide_eq_true_eq, ne_eq] at hpred
  refine ⟨hpred.1, hpred.2, fun hc => ?_⟩
  have := splitChars_sep_free (fun c => c = '/') s.data g hmem '/' hc
  simp at this

theorem resolve_raw_wf (s : String) :
    ∀ g ∈ resolveDots (rawSegs s), wfSeg g ∧ g ≠ ['.', '.'] := by
  intro g hg
  have h1 := resolveDots_mem (rawSegs s) g hg
  exact ⟨rawSegs_wf s g h1.1, h1.2⟩

theorem rawSegs_mkAbs (segs : List (List Char)) (h : ∀ g ∈ segs, wfSeg g) :
    rawSegs (mkAbs segs) = segs := by
  unfold rawSegs mkAbs
  have hdata : (String.mk ('/' :: List.intercalate ['/'] segs)).data =
      '/' :: List.intercalate ['/'] segs := rfl
  rw [hdata]
  have hsep : (fun c => decide (c = '/')) '/' = true := by simp
  simp only [splitChars, hsep, if_pos]
  cases hsegs : segs with
  | nil =>
    simp [List.intercalate, List.intersperse, splitChars]
  | cons g gs =>
    rw [← hsegs]
    rw [splitChars_intercalate _ '/' (by simp) segs (by simp [hsegs])
      (fun g hg d hd => by
        have := (h g hg).2.2
        simp only [decide_eq_false_iff_not]
        intro he
        exact this (he ▸ hd))]
    show List.filter (fun g => !g.isEmpty && g ≠ ['.']) segs = segs
    rw [List.filter_eq_self]
    intro a ha
    simp only [Bool.and_eq_true, Bool.not_eq_true', List.isEmpty_eq_false,
      decide_eq_true_eq, ne_eq]
    exact ⟨(h a ha).1, (h a ha).2.1⟩

theorem rawSegs_goClean (s : String) :
    rawSegs (goClean s) = resolveDots (rawSegs s) := by
  unfold goClean
  exact rawSegs_mkAbs _ (fun g hg => (resolve_raw_wf s g hg).1)

theorem resolve_raw_goClean (s : String) :
    resolveDots (rawSegs (goClean s)) = resolveDots (rawSegs s) := by
  rw [rawSegs_goClean]
  exact resolveDots_no_dd _ (fun hm => (resolve_raw_wf s _ hm).2 rfl)

theorem rawSegs_append (a b : String) :
    rawSegs (a ++ "/" ++ b) = rawSegs a ++ rawSegs b := by
  unfold rawSegs
  have hdata : (a ++ "/" ++ b).data = a.data ++ '/' :: b.data := by
    rw [String.data_append, String.data_append]
    have : ("/" : String).data = ['/'] := rfl
    rw [this, List.append_assoc]
    rfl
  rw [hdata, splitChars_append _ '/' (by simp) b.data a.data, List.filter_append]

/-! ### Lemmas about the common-prefix scan and Rel -/

theorem commonLen_le (as : List (List Char)) :
    ∀ bs, commonLen as bs ≤ as.length := by
  induction as with
  | nil => intro bs; cases bs <;> simp [commonLen]
  | cons a as ih =>
    intro bs
    cases bs with
    | nil => simp [commonLen]
    | cons b bs =>
      simp only [commonLen]
      by_cases hab : a = b
      · rw [if_pos hab]
        simpa using Nat.succ_le_succ (ih bs)
      · rw [if_neg hab]
        simp

theorem prefix_iff_commonLen (as : List (List Char)) :
    ∀ bs, as <+: bs ↔ commonLen as bs = as.length := by
  induction as with
  | nil =>
    intro bs
    cases bs <;> simp [commonLen, List.nil_prefix]
  | cons a as ih =>
    intro bs
    cases bs with
    | nil =>
      simp only [commonLen, List.length_cons]
      constructor
      · intro h
        exact absurd (List.eq_nil_of_prefix_nil h) (by simp)
      · omega
    | cons b bs =>
      rw [List.cons_prefix_cons]
      simp only [commonLen, List.length_cons]
      by_cases hab : a = b
      · rw [if_pos hab, ih bs]
        constructor
        · rintro ⟨_, h⟩; omega
        · intro h; exact ⟨hab, by omega⟩
      · rw [if_neg hab]
        constructor
        · rintro ⟨h, _⟩; exact absurd h hab
        · omega

theorem relSegs_head_dd (as bs : List (List Char)) (h : ¬as <+: bs) :
    ∃ t, relSegs as bs = ['.', '.'] :: t := by
  have hlt : commonLen as bs < as.length := by
    have hle := commonLen_le as bs
    rcases Nat.lt_or_ge (commonLen as bs) as.length with h' | h'
    · exact h'
    · exact absurd ((prefix_iff_commonLen as bs).mpr (Nat.le_antisymm hle h')) h
  unfold relSegs
  have : as.length - commonLen as bs = (as.length - commonLen as bs - 1) + 1 := by omega
  rw [this, List.replicate_succ]
  exact ⟨_, rfl⟩

theorem strStarts_intercalate_dd (t : List (List Char)) :
    strStarts (String.mk (List.intercalate ['/'] (['.', '.'] :: t))) ".." = true := by
  unfold strStarts
  have hdd : (".." : String).data = ['.', '.'] := rfl
  have hdata : (String.mk (List.intercalate ['/'] (['.', '.'] :: t))).data =
      List.intercalate ['/'] (['.', '.'] :: t) := rfl
  rw [hdd, hdata, List.isPrefixOf_iff_prefix]
  cases t with
  | nil =>
    rw [intercalate_one]
  | cons h t =>
    rw [intercalate_two, List.append_assoc]
    exact List.prefix_append _ _

/-! ### C1: the path-escape characterization -/

theorem validatePath_eval (mounts : List (String × String)) (name sub root : String)
    (h : getStorageRoot mounts name = .ok root) :
    validatePath mounts name sub =
      (if strStarts (goRel root (goJoin root sub)) ".." then .error .pathEscape
       else .ok (goJoin root sub)) := by
  have hclean : goClean (goJoin root sub) = goJoin root sub := by
    show mkAbs (resolveDots (rawSegs (goClean (root ++ "/" ++ sub)))) =
      goClean (root ++ "/" ++ sub)
    rw [resolve_raw_goClean]
    rfl
  unfold validatePath
  rw [h]
  show (if strStarts (goRel root (goClean (goJoin root sub))) ".." then
      Except.error PathError.pathEscape
    else Except.ok (goClean (goJoin root sub))) = _
  rw [hclean]

/-- C1 (amended): whenever storage lookup succeeds, a subpath whose lexically
cleaned join with the mount root falls outside the root always fails with the
path-escape error; and whenever resolution succeeds, the returned path is the
cleaned join and a descendant of the root.  Resolution succeeds exactly when
the relative path from the root to the cleaned join does not begin with the
two characters "..", which also rejects some in-root entries (see the
counterexample). -/
theorem validatePath_escape_correct (mounts : List (String × String))
    (name sub root : String) (h : getStorageRoot mounts name = .ok root) :
    (staysWithinRoot root (goJoin root sub) = false →
      validatePath mounts name sub = .error .pathEscape)
    ∧ (∀ p, validatePath mounts name sub = .ok p →
        p = goJoin root sub ∧ staysWithinRoot root p = true)
    ∧ (strStarts (goRel root (goJoin root sub)) ".." = false →
        validatePath mounts name sub = .ok (goJoin root sub)) := by
  have hvp := validatePath_eval mounts name sub root h
  have hsegs : resolveDots (rawSegs (goJoin root sub)) =
      resolveDots (rawSegs (root ++ "/" ++ sub)) := by
    unfold goJoin
    exact resolve_raw_goClean _
  have hwithin : staysWithinRoot root (goJoin root sub) =
      (resolveDots (rawSegs root)).isPrefixOf
        (resolveDots (rawSegs (root ++ "/" ++ sub))) := by
    unfold staysWithinRoot
    rw [hsegs]
  have hrel : goRel root (goJoin root sub) =
      (match relSegs (resolveDots (rawSegs root))
          (resolveDots (rawSegs (root ++ "/" ++ sub))) with
       | [] => "."
       | segs => String.mk (List.intercalate ['/'] segs)) := by
    unfold goRel
    rw [hsegs]
  by_cases hpre : (resolveDots (rawSegs root)) <+:
      (resolveDots (rawSegs (root ++ "/" ++ sub)))
  · -- the cleaned join stays within the root
    have hw : staysWithinRoot root (goJoin root sub) = true := by
      rw [hwithin]
      exact List.isPrefixOf_iff_prefix.mpr hpre
    refine ⟨fun hfalse => by rw [hw] at hfalse; exact absurd hfalse (by simp), ?_, ?_⟩
    · intro p hp
      rw [hvp] at hp
      by_cases hss : strStarts (goRel root (goJoin root sub)) ".." = true
      · rw [if_pos hss] at hp
        exact absurd hp (by simp)
      · rw [if_neg hss] at hp
        have : p = goJoin root sub := by
          injection hp with h'
          exact h'.symm
        exact ⟨this, this ▸ hw⟩
    · intro hss
      rw [hvp, hss]
      simp
  · -- the cleaned join escapes the root: rel starts with a ".." segment
    obtain ⟨t, ht⟩ := relSegs_head_dd _ _ hpre
    have hss : strStarts (goRel root (goJoin root sub)) ".." = true := by
      rw [hrel, ht]
      exact strStarts_intercalate_dd t
    have herr : validatePath mounts name sub = .error .pathEscape := by
      rw [hvp, hss]
      simp
    refine ⟨fun _ => herr, ?_, ?_⟩
    · intro p hp
      rw [herr] at hp
      exact absurd hp (by simp)
    · intro hfalse
      rw [hss] at hfalse
      exact absurd hfalse (by simp)

/-- Witness for C1's theorem at a concrete mount table, storage and subpath. -/
theorem validatePath_escape_correct_witness :
    validatePath [("a", "/mnt/a")] "a" "docs/x.txt" = .ok "/mnt/a/docs/x.txt"
    ∧ staysWithinRoot "/mnt/a" "/mnt/a/docs/x.txt" = true := by
  have h := (validatePath_escape_correct [("a", "/mnt/a")] "a" "docs/x.txt" "/mnt/a"
    (by decide)).2.2 (by decide)
  have hj : goJoin "/mnt/a" "docs/x.txt" = "/mnt/a/docs/x.txt" := by decide
  rw [hj] at h
  exact ⟨h, by decide⟩

/-- Counterexample to C1 as stated: the subpath "..foo" cleans to the in-root
path "/mnt/a/..foo" (a descendant of the root), yet resolution fails with the
path-escape error, because the code tests the relative path with a string
HasPrefix ".." rather than for a parent-directory segment. -/
theorem validatePath_escape_counterexample :
    staysWithinRoot "/mnt/a" (goJoin "/mnt/a" "..foo") = true
    ∧ validatePath [("a", "/mnt/a")] "a" "..foo" = .error .pathEscape := by
  constructor
  · decide
  · decide

/-! ## Domain model (internal/domain)

domain.FileInfo as produced by the driver, and a row of the SQLite
"files" table.  Go int/int64 fields are Int, time.Time is Int seconds. -/

structure FileInfo where
  name : String
  size : Int
  mode : String
  modTime : Int
  isDir : Bool
  extension : String
  itemCount : Int
  path : String
deriving DecidableEq, Repr

structure Row where
  storage : String
  name : String
  path : String
  isDir : Bool
  size : Int
  modified : Int
  extension : String
  itemCount : Int
deriving DecidableEq, Repr

/-! ## Hidden/junk filters (internal/infra/filesystem)

isHiddenFile: fast path on the first character plus the denylist regex.
The regex is an alternation whose second alternative is anchored only at
the end of the name, so it matches whenever the name case-insensitively
ENDS with one of the listed words. -/

def hiddenDenylist : List String :=
  ["system volume information", "recycle", "recycler", "desktop.ini", "thumbs.db",
   "node_modules", "vendor", "__pycache__", ".git", ".idea", ".vscode", ".dart_tool",
   ".pub-cache", ".svn", "dist", "build", "target", "obj", "bin", ".cache", ".config",
   ".local", ".mozilla", ".rustup", ".cargo", ".npm"]

def isHiddenFile (name : String) : Bool :=
  (match name.data with
   | c :: _ => c = '.' || c = '$' || c = '~'
   | [] => false)
  || hiddenDenylist.any (fun d => strEnds (lowerStr name) d)

/-- filepath.Ext: the suffix of the name starting at the final dot
(empty when the name contains no dot). -/
def fileExt (name : String) : String :=
  let r := name.data.reverse.takeWhile (fun c => c ≠ '.')
  if r.length = name.data.length then "" else String.mk ('.' :: r.reverse)

def projectJunkExtensions : List String :=
  ["c", "cpp", "h", "hpp", "cs", "go", "java", "js", "jsx", "ts", "tsx", "php",
   "py", "rb", "pl", "swift", "kt", "kts", "rs", "dart", "lua", "sh", "bat", "ps1",
   "cmd", "vb", "vbs", "sql", "r", "m",
   "html", "css", "scss", "less", "sass",
   "json", "xml", "yaml", "yml", "toml", "ini",
   "env", "lock", "mod", "sum", "map", "gitignore", "dockerignore",
   "class", "jar", "war", "ear", "o", "obj",
   "dll", "so", "dylib", "exe", "bin", "dat", "log", "tmp", "bak", "swp"]

def isProjectJunk (name : String) : Bool :=
  name = "LICENSE" || name = "README" || name = "Makefile" ||
  (let ext := lowerStr (fileExt name)
   if ext.data.length > 1 then projectJunkExtensions.contains (String.mk ext.data.tail)
   else false)

example : isHiddenFile ".git" = true := by decide
example : isHiddenFile "$RECYCLE.BIN" = true := by decide
example : isHiddenFile "photo.jpg" = false := by decide
example : isHiddenFile "Node_Modules" = true := by decide
example : isProjectJunk "main.go" = true := by decide
example : isProjectJunk "README" = true := by decide
example : isProjectJunk "photo.jpg" = false := by decide
example : fileExt "photo.JPG" = ".JPG" := by decide
example : fileExt "Makefile" = "" := by decide
example : fileExt ".gitignore" = ".gitignore" := by decide

/-! ## The index rebuild (filesystem_service updateIndex)

The SQLite table is a list of rows; the transaction is modelled by
explicit state passing: any failing step other than a row insert leaves
the table at its prior state (the deferred rollback), a failing row
insert is skipped, and only a successful commit publishes the delete
plus the batch insert. -/

/-- Which steps of the rebuild transaction fail. -/
structure TxOracle where
  beginFails : Bool
  deleteFails : Bool
  prepFails : Bool
  commitFails : Bool
  insertFails : FileInfo → Bool

/-- The oracle of an entirely successful transaction. -/
def okTx : TxOracle :=
  { beginFails := false, deleteFails := false, prepFails := false,
    commitFails := false, insertFails := fun _ => false }

/-- The dot stripping of updateIndex: if the extension is nonempty and its
first byte is a dot, drop it. -/
def stripDot (e : String) : String :=
  match e.data with
  | c :: rest => if c = '.' then String.mk rest else e
  | [] => e

/-- The row inserted for one walked entry: extension is stripped of a
leading dot and lowercased before insertion. -/
def toRow (storage : String) (f : FileInfo) : Row :=
  { storage := storage, name := f.name, path := f.path, isDir := f.isDir,
    size := f.size, modified := f.modTime,
    extension := lowerStr (stripDot f.extension),
    itemCount := f.itemCount }

/-- updateIndex: begin, delete all rows of the storage, prepare, insert
row by row skipping failing rows, commit; every early return leaves the
deferred rollback to restore the table. -/
def updateIndex (o : TxOracle) (db : List Row) (storage : String)
    (files : List FileInfo) : List Row :=
  if o.beginFails then db
  else if o.deleteFails then db
  else if o.prepFails then db
  else
    let inserted := (files.filter (fun f => !o.insertFails f)).map (toRow storage)
    if o.commitFails then db
    else db.filter (fun r => r.storage ≠ storage) ++ inserted

theorem mem_map_toRow {storage : String} {fs : List FileInfo} {r : Row}
    (h : r ∈ fs.map (toRow storage)) : r.storage = storage := by
  obtain ⟨f, _, rfl⟩ := List.mem_map.mp h
  rfl

/-- C2: if any of begin, delete, prepare or commit fails, the table is
exactly what it was before the rebuild; on a fully successful transaction
the storage's rows are exactly the batch of non-failing inserts (failing
row inserts are skipped without aborting) and rows of other storages are
untouched. -/
theorem updateIndex_transactional (o : TxOracle) (db : List Row) (storage : String)
    (files : List FileInfo) :
    ((o.beginFails = true ∨ o.deleteFails = true ∨ o.prepFails = true ∨
        o.commitFails = true) → updateIndex o db storage files = db)
    ∧ (o.beginFails = false → o.deleteFails = false → o.prepFails = false →
        o.commitFails = false →
        (updateIndex o db storage files).filter (fun r => r.storage = storage)
          = (files.filter (fun f => !o.insertFails f)).map (toRow storage)
        ∧ (updateIndex o db storage files).filter (fun r => r.storage ≠ storage)
          = db.filter (fun r => r.storage ≠ storage)) := by
  constructor
  · intro h
    unfold updateIndex
    rcases h with h | h | h | h <;> simp [h]
  · intro h1 h2 h3 h4
    have hval : updateIndex o db storage files
        = db.filter (fun r => r.storage ≠ storage)
          ++ (files.filter (fun f => !o.insertFails f)).map (toRow storage) := by
      unfold updateIndex
      simp [h1, h2, h3, h4]
    rw [hval]
    constructor
    · rw [List.filter_append]
      have hleft : (db.filter (fun r => r.storage ≠ storage)).filter
          (fun r => r.storage = storage) = [] := by
        rw [List.filter_filter]
        apply List.filter_eq_nil_iff.mpr
        intro a _
        simp only [Bool.and_eq_true, decide_eq_true_eq, ne_eq, not_and]
        intro he hne
        exact hne he
      have hright : ((files.filter (fun f => !o.insertFails f)).map
          (toRow storage)).filter (fun r => r.storage = storage)
          = (files.filter (fun f => !o.insertFails f)).map (toRow storage) := by
        apply List.filter_eq_self.mpr
        intro a ha
        simp only [decide_eq_true_eq]
        exact mem_map_toRow ha
      rw [hleft, hright, List.nil_append]
    · rw [List.filter_append]
      have hleft : (db.filter (fun r => r.storage ≠ storage)).filter
          (fun r => r.storage ≠ storage) = db.filter (fun r => r.storage ≠ storage) := by
        apply List.filter_eq_self.mpr
        intro a ha
        exact (List.mem_filter.mp ha).2
      have hright : ((files.filter (fun f => !o.insertFails f)).map
          (toRow storage)).filter (fun r => r.storage ≠ storage) = [] := by
        apply List.filter_eq_nil_iff.mpr
        intro a ha
        simp only [Bool.not_eq_true, decide_eq_false_iff_not, ne_eq, not_not]
        exact mem_map_toRow ha
      rw [hleft, hright, List.append_nil]

def fiTxt : FileInfo :=
  { name := "a.txt", size := 3, mode := "-rw-r--r--", modTime := 100,
    isDir := false, extension := ".txt", itemCount := 0, path := "a.txt" }

def fiJpg : FileInfo :=
  { name := "b.JPG", size := 5, mode := "-rw-r--r--", modTime := 200,
    isDir := false, extension := ".JPG", itemCount := 0, path := "b.JPG" }

def rowOther : Row :=
  { storage := "other", name := "c.txt", path := "c.txt", isDir := false,
    size := 1, modified := 50, extension := "txt", itemCount := 0 }

/-- An oracle whose commit fails. -/
def commitFailTx : TxOracle :=
  { beginFails := false, deleteFails := false, prepFails := false,
    commitFails := true, insertFails := fun _ => false }

/-- An oracle under which inserting the row for "a.txt" fails. -/
def skipRowTx : TxOracle :=
  { beginFails := false, deleteFails := false, prepFails := false,
    commitFails := false, insertFails := fun f => f.name = "a.txt" }

/-- Witness for C2's theorem: a failing commit leaves the table unchanged,
and a single failing row insert is skipped while the other row lands. -/
theorem updateIndex_transactional_witness :
    updateIndex commitFailTx [rowOther] "s" [fiTxt, fiJpg] = [rowOther]
    ∧ (updateIndex skipRowTx [rowOther] "s" [fiTxt, fiJpg]).filter
        (fun r => r.storage = "s") = [toRow "s" fiJpg] := by
  constructor
  · exact (updateIndex_transactional commitFailTx [rowOther] "s" [fiTxt, fiJpg]).1
      (Or.inr (Or.inr (Or.inr rfl)))
  · have h := ((updateIndex_transactional skipRowTx [rowOther] "s"
      [fiTxt, fiJpg]).2 rfl rfl rfl rfl).1
    rw [h]
    decide

/-! ## The indexed search (filesystem_service SearchIndexedFiles)

The SQL predicate: storage match, not a directory, name not starting
with '.', '$' or '~', extension in the lowercased requested set when
that set is nonempty, and modified after the cutoff when days > 0.
The count query shares this predicate.  The page query orders by
modification time descending and appends LIMIT only when limit > 0 and
OFFSET only when offset > 0; with OFFSET but no LIMIT the SQL is
syntactically invalid, the query fails, and the error path returns an
empty page with total 0, discarding the already-computed count. -/

def searchPred (storage : String) (exts : List String) (days now : Int) (r : Row) : Bool :=
  r.storage = storage && !r.isDir
  && !(strStarts r.name ".") && !(strStarts r.name "$") && !(strStarts r.name "~")
  && (exts.isEmpty || (exts.map lowerStr).contains r.extension)
  && (if days > 0 then decide (now - days * 86400 < r.modified) else true)

/-- ORDER BY modified DESC. -/
def byModDesc (a b : Row) : Prop := b.modified ≤ a.modified

instance : DecidableRel byModDesc := fun a b => Int.decLe b.modified a.modified

instance : IsTotal Row byModDesc :=
  ⟨fun a b => (Int.le_total a.modified b.modified).symm⟩

instance : IsTrans Row byModDesc :=
  ⟨fun _ _ _ hab hbc => le_trans hbc hab⟩

def SearchIndexedFiles (db : List Row) (storage : String) (exts : List String)
    (limit offset days now : Int) : List Row × Int :=
  let matched := db.filter (searchPred storage exts days now)
  let total : Int := matched.length
  if limit ≤ 0 ∧ offset ≤ 0 then ([], total)
  else if limit ≤ 0 then ([], 0)
  else
    let sorted := List.insertionSort byModDesc matched
    if offset > 0 then ((sorted.drop offset.toNat).take limit.toNat, total)
    else (sorted.take limit.toNat, total)

/-- A concrete indexed jpg file, used by the scenario inputs. -/
def rowJpg (i : Nat) : Row :=
  { storage := "s", name := "f" ++ toString i, path := "f" ++ toString i,
    isDir := false, size := 1, modified := (i : Int), extension := "jpg",
    itemCount := 0 }

/-- 25 indexed jpg files. -/
def db25 : List Row := (List.range 25).map rowJpg

example : (SearchIndexedFiles db25 "s" ["jpg"] 10 10 0 0).2 = 25 := by decide
example : (SearchIndexedFiles db25 "s" ["jpg"] 10 10 0 0).1.length = 10 := by decide
example : SearchIndexedFiles [rowJpg 0] "s" [] 0 1 0 0 = ([], 0) := by decide

/-- C10: with limit ≤ 0 and offset > 0 the page query carries an OFFSET
clause but no LIMIT clause, which SQLite rejects, so the call returns an
empty page and a total of 0 regardless of how many rows match. -/
theorem search_offset_without_limit (db : List Row) (storage : String)
    (exts : List String) (limit offset days now : Int)
    (hl : limit ≤ 0) (ho : 0 < offset) :
    SearchIndexedFiles db storage exts limit offset days now = ([], 0) := by
  unfold SearchIndexedFiles
  rw [if_neg (fun hand => absurd ho (not_lt.mpr hand.2)), if_pos hl]

/-- Witness for C10's theorem: one matching row, limit 0, offset 1. -/
theorem search_offset_without_limit_witness :
    SearchIndexedFiles [rowJpg 0] "s" [] 0 1 0 0 = ([], 0)
    ∧ ([rowJpg 0].filter (searchPred "s" [] 0 0)).length = 1 :=
  ⟨search_offset_without_limit [rowJpg 0] "s" [] 0 1 0 0 (by decide) (by decide),
   by decide⟩

/-- Counterexample to C3 as stated: the returned total is NOT independent of
limit and offset — with limit 0 and offset 1 a matching row exists but the
call reports total 0 (the failing page query discards the computed count). -/
theorem search_total_counterexample :
    (SearchIndexedFiles [rowJpg 0] "s" [] 0 1 0 0).2 = 0
    ∧ ([rowJpg 0].filter (searchPred "s" [] 0 0)).length = 1 := by
  constructor
  · decide
  · decide

/-- C3 (amended): except for the failing combination limit ≤ 0 < offset,
the returned total equals the number of index rows satisfying the search
predicate, independent of limit and offset; the page consists of exactly
those rows ordered by modification time descending with limit and offset
applied — it IS the [offset, offset+limit) slice (negative offsets
clamped to 0) of the descending-sorted matching rows — hence it is
descending, draws only from the matching rows, and has length
min(limit, total - max(offset, 0)); in particular with 25 indexed jpg
files, search(storage, [jpg], 10, 10, 0) returns a page of 10 and
total 25. -/
theorem search_total_and_page (db : List Row) (storage : String) (exts : List String)
    (limit offset days now : Int) (h : 0 < limit ∨ offset ≤ 0) :
    (SearchIndexedFiles db storage exts limit offset days now).2
      = ((db.filter (searchPred storage exts days now)).length : Int)
    ∧ (SearchIndexedFiles db storage exts limit offset days now).1
      = ((List.insertionSort byModDesc
          (db.filter (searchPred storage exts days now))).drop
            (max offset 0).toNat).take limit.toNat
    ∧ List.Pairwise byModDesc (SearchIndexedFiles db storage exts limit offset days now).1
    ∧ (∀ r ∈ (SearchIndexedFiles db storage exts limit offset days now).1,
        r ∈ db.filter (searchPred storage exts days now))
    ∧ (SearchIndexedFiles db storage exts limit offset days now).1.length
      = min limit.toNat
          ((db.filter (searchPred storage exts days now)).length - (max offset 0).toNat) := by
  unfold SearchIndexedFiles
  by_cases hz : limit ≤ 0 ∧ offset ≤ 0
  · rw [if_pos hz]
    have hlim : limit.toNat = 0 := Int.toNat_of_nonpos hz.1
    simp [hlim]
  · rw [if_neg hz]
    have hlim : 0 < limit := by
      rcases h with h | h
      · exact h
      · rcases Int.lt_or_le 0 limit with h' | h'
        · exact h'
        · exact absurd ⟨h', h⟩ hz
    rw [if_neg (not_le.mpr hlim)]
    have hperm := List.perm_insertionSort byModDesc
      (db.filter (searchPred storage exts days now))
    have hsorted := List.sorted_insertionSort byModDesc
      (db.filter (searchPred storage exts days now))
    have hlen : (List.insertionSort byModDesc
        (db.filter (searchPred storage exts days now))).length
        = (db.filter (searchPred storage exts days now)).length := hperm.length_eq
    by_cases hoff : 0 < offset
    · rw [if_pos hoff]
      have hmax : max offset 0 = offset := max_eq_left (le_of_lt hoff)
      refine ⟨rfl, ?_, ?_, ?_, ?_⟩
      · rw [hmax]
      · exact hsorted.sublist ((List.take_sublist _ _).trans (List.drop_sublist _ _))
      · intro r hr
        exact hperm.mem_iff.mp
          (((List.take_sublist _ _).trans (List.drop_sublist _ _)).subset hr)
      · rw [List.length_take, List.length_drop, hlen, hmax]
    · rw [if_neg hoff]
      have hmax : max offset 0 = 0 := max_eq_right (le_of_not_lt hoff)
      refine ⟨rfl, ?_, ?_, ?_, ?_⟩
      · rw [hmax]
        rfl
      · exact hsorted.sublist (List.take_sublist _ _)
      · intro r hr
        exact hperm.mem_iff.mp ((List.take_sublist _ _).subset hr)
      · rw [List.length_take, hlen, hmax]
        rfl

/-- Witness for C3's theorem, which is also the pagination scenario: 25
indexed jpg files, limit 10, offset 10 give total 25, the page is the
[10, 20) slice of the descending-sorted matches, and it has 10 entries. -/
theorem search_total_and_page_witness :
    (SearchIndexedFiles db25 "s" ["jpg"] 10 10 0 0).2 = 25
    ∧ (SearchIndexedFiles db25 "s" ["jpg"] 10 10 0 0).1
      = ((List.insertionSort byModDesc
          (db25.filter (searchPred "s" ["jpg"] 0 0))).drop 10).take 10
    ∧ (SearchIndexedFiles db25 "s" ["jpg"] 10 10 0 0).1.length = 10 := by
  have h := search_total_and_page db25 "s" ["jpg"] 10 10 0 0 (Or.inl (by decide))
  refine ⟨h.1.trans (by decide), h.2.1.trans (by decide), ?_⟩
  rw [h.2.2.2.2]
  decide

/-! ## Extension-group statistics (handler GetStats)

GetStats first takes the total from search(storage, [], 0, 0, 0), then for
every requested category other than "others" takes the count from
search(storage, exts, 0, 0, 0); when "others" was requested it is the total
minus the sum of the named counts, floored at zero. -/

def GetStats (db : List Row) (storage : String) (req : List (String × List String))
    (now : Int) : List (String × Int) :=
  let total := (SearchIndexedFiles db storage [] 0 0 0 now).2
  let named := req.filter (fun p => p.1 ≠ "others")
  let stats := named.map (fun p => (p.1, (SearchIndexedFiles db storage p.2 0 0 0 now).2))
  let sumKnown := (stats.map (fun p => p.2)).sum
  if req.any (fun p => p.1 = "others")
  then stats ++ [("others", max (total - sumKnown) 0)]
  else stats

/-- The count-only fast path: limit = offset = 0 returns the predicate count. -/
theorem search_count (db : List Row) (storage : String) (exts : List String)
    (days now : Int) :
    (SearchIndexedFiles db storage exts 0 0 days now).2
      = ((db.filter (searchPred storage exts days now)).length : Int) := by
  unfold SearchIndexedFiles
  rw [if_pos ⟨le_refl 0, le_refl 0⟩]

/-- For a nonempty extension set the search predicate is the no-extension
predicate conjoined with membership of the row's extension in the lowered
set. -/
theorem searchPred_decomp (storage : String) (g : List String) (hg : g ≠ [])
    (days now : Int) (r : Row) :
    searchPred storage g days now r
      = (searchPred storage [] days now r && (g.map lowerStr).contains r.extension) := by
  apply Bool.eq_iff_iff.mpr
  unfold searchPred
  have hge : g.isEmpty = false := by
    rw [List.isEmpty_eq_false]
    exact hg
  simp only [hge, List.isEmpty_nil, Bool.true_or, Bool.and_true, Bool.false_or,
    Bool.and_eq_true, List.map_nil, List.elem_nil, Bool.or_eq_true]
  tauto

theorem filter_cons_length (q : Row → Bool) (r : Row) (db : List Row) :
    (List.filter q (r :: db)).length
      = (if q r then 1 else 0) + (List.filter q db).length := by
  by_cases h : q r <;> simp [List.filter_cons, h, Nat.add_comm]

/-- With pairwise lowercase-disjoint groups, a single extension lies in at
most one group. -/
theorem indicator_sum_le_one (e : String) (groups : List (List String))
    (hdisj : List.Pairwise (fun g h => ∀ x, x ∈ g.map lowerStr → x ∉ h.map lowerStr)
      groups) :
    ((groups.map (fun g => if (g.map lowerStr).contains e then 1 else 0)).sum : Nat)
      ≤ 1 := by
  induction groups with
  | nil => simp
  | cons g gs ih =>
    rcases List.pairwise_cons.mp hdisj with ⟨hg, hgs⟩
    by_cases hc : (g.map lowerStr).contains e
    · have he : e ∈ g.map lowerStr := List.elem_iff.mp hc
      have hrest : ∀ h ∈ gs, ((h.map lowerStr).contains e) = false := by
        intro h hh
        have := hg h hh e he
        rw [← Bool.not_eq_true]
        intro hcon
        exact this (List.elem_iff.mp hcon)
      have hz : (gs.map (fun g => if (g.map lowerStr).contains e then 1 else 0)).sum
          = 0 := by
        apply List.sum_eq_zero
        intro x hx
        obtain ⟨h, hh, rfl⟩ := List.mem_map.mp hx
        rw [hrest h hh]
        simp
      rw [List.map_cons, List.sum_cons, if_pos hc, hz]
    · rw [List.map_cons, List.sum_cons, if_neg hc, Nat.zero_add]
      exact ih hgs

/-- Counts of pairwise-disjoint extension groups never sum past the total. -/
theorem sum_group_counts_le (P : Row → Bool) (groups : List (List String))
    (hdisj : List.Pairwise (fun g h => ∀ x, x ∈ g.map lowerStr → x ∉ h.map lowerStr)
      groups) :
    ∀ db : List Row,
      ((groups.map (fun g =>
        (db.filter (fun r => P r && (g.map lowerStr).contains r.extension)).length)).sum)
        ≤ (db.filter P).length := by
  intro db
  induction db with
  | nil => simp
  | cons r db ih =>
    rw [filter_cons_length P]
    have hmap : groups.map (fun g =>
        (List.filter (fun r' => P r' && (g.map lowerStr).contains r'.extension)
          (r :: db)).length)
        = groups.map (fun g =>
            (if P r && (g.map lowerStr).contains r.extension then 1 else 0)
            + (List.filter (fun r' => P r' && (g.map lowerStr).contains r'.extension)
                db).length) := by
      apply List.map_congr_left
      intro g _
      exact filter_cons_length _ r db
    rw [hmap, List.sum_map_add]
    by_cases hP : P r
    · have hind : (groups.map (fun g =>
          if P r && (g.map lowerStr).contains r.extension then 1 else 0)).sum ≤ 1 := by
        have : (fun g : List String =>
            if P r && (g.map lowerStr).contains r.extension then 1 else 0)
            = (fun g => if (g.map lowerStr).contains r.extension then 1 else 0) := by
          funext g
          simp [hP]
        rw [this]
        exact indicator_sum_le_one r.extension groups hdisj
      rw [if_pos hP]
      exact Nat.add_le_add hind ih
    · have hind : (groups.map (fun g =>
          if P r && (g.map lowerStr).contains r.extension then 1 else 0)).sum = 0 := by
        apply List.sum_eq_zero
        intro x hx
        obtain ⟨g, _, rfl⟩ := List.mem_map.mp hx
        simp [hP]
      rw [if_neg hP, hind, Nat.zero_add, Nat.zero_add]
      exact ih

/-- The sum of the named counts, as computed by GetStats, bounded by the
total count, for pairwise lowercase-disjoint nonempty groups. -/
theorem named_sum_le_total (db : List Row) (storage : String)
    (named : List (String × List String)) (now : Int)
    (hdisj : List.Pairwise (fun p q => ∀ x, x ∈ p.2.map lowerStr → x ∉ q.2.map lowerStr)
      named)
    (hne : ∀ p ∈ named, p.2 ≠ []) :
    (named.map (fun p => (SearchIndexedFiles db storage p.2 0 0 0 now).2)).sum
      ≤ (SearchIndexedFiles db storage [] 0 0 0 now).2 := by
  have hcounts : named.map (fun p => (SearchIndexedFiles db storage p.2 0 0 0 now).2)
      = named.map (fun p =>
          (((db.filter (fun r => searchPred storage [] 0 now r
              && (p.2.map lowerStr).contains r.extension)).length : Nat) : Int)) := by
    apply List.map_congr_left
    intro p hp
    rw [search_count]
    congr 1
    exact congrArg List.length
      (List.filter_congr (fun r _ => searchPred_decomp storage p.2 (hne p hp) 0 now r))
  rw [hcounts, search_count]
  have hmm : named.map (fun p =>
      (((db.filter (fun r => searchPred storage [] 0 now r
          && (p.2.map lowerStr).contains r.extension)).length : Nat) : Int))
      = (named.map (fun p =>
          ((db.filter (fun r => searchPred storage [] 0 now r
            && (p.2.map lowerStr).contains r.extension)).length : Nat))).map
          (fun n : Nat => (n : Int)) := by
    rw [List.map_map]
    rfl
  rw [hmm, ← Nat.cast_list_sum]
  have hnat : (named.map (fun p =>
      ((db.filter (fun r => searchPred storage [] 0 now r
        && (p.2.map lowerStr).contains r.extension)).length : Nat))).sum
      ≤ (db.filter (searchPred storage [] 0 now)).length := by
    have hgroups : named.map (fun p =>
        ((db.filter (fun r => searchPred storage [] 0 now r
          && (p.2.map lowerStr).contains r.extension)).length : Nat))
        = (named.map (fun p => p.2)).map (fun g =>
            (db.filter (fun r => searchPred storage [] 0 now r
              && (g.map lowerStr).contains r.extension)).length) := by
      rw [List.map_map]
      rfl
    rw [hgroups]
    exact sum_group_counts_le (searchPred storage [] 0 now) (named.map (fun p => p.2))
      (hdisj.map (fun p : String × List String => p.2) (fun a b h => h)) db
  exact_mod_cast hnat

/-- C6 (amended): for every stats request whose named extension groups are
pairwise disjoint (as case-insensitive extension sets) and NONEMPTY, together
with a requested "others" group, the returned others count equals the total
non-hidden indexed file count minus the sum of the named-group counts (the
zero floor never engages), so the named counts plus others equal the total and
others is never negative.  Nonemptiness is required because a named group with
an empty extension list is counted by the code as the full total, not zero. -/
theorem getStats_others_additive (db : List Row) (storage : String)
    (req : List (String × List String)) (now : Int)
    (hdisj : List.Pairwise (fun p q => ∀ x, x ∈ p.2.map lowerStr → x ∉ q.2.map lowerStr)
      (req.filter (fun p => p.1 ≠ "others")))
    (hne : ∀ p ∈ req.filter (fun p => p.1 ≠ "others"), p.2 ≠ [])
    (hothers : req.any (fun p => p.1 = "others") = true) :
    GetStats db storage req now
      = (req.filter (fun p => p.1 ≠ "others")).map
          (fun p => (p.1, (SearchIndexedFiles db storage p.2 0 0 0 now).2))
        ++ [("others",
             (SearchIndexedFiles db storage [] 0 0 0 now).2
               - ((req.filter (fun p => p.1 ≠ "others")).map
                   (fun p => (SearchIndexedFiles db storage p.2 0 0 0 now).2)).sum)]
    ∧ ((req.filter (fun p => p.1 ≠ "others")).map
         (fun p => (SearchIndexedFiles db storage p.2 0 0 0 now).2)).sum
        + ((SearchIndexedFiles db storage [] 0 0 0 now).2
           - ((req.filter (fun p => p.1 ≠ "others")).map
               (fun p => (SearchIndexedFiles db storage p.2 0 0 0 now).2)).sum)
        = (SearchIndexedFiles db storage [] 0 0 0 now).2
    ∧ 0 ≤ (SearchIndexedFiles db storage [] 0 0 0 now).2
        - ((req.filter (fun p => p.1 ≠ "others")).map
            (fun p => (SearchIndexedFiles db storage p.2 0 0 0 now).2)).sum := by
  have hle := named_sum_le_total db storage (req.filter (fun p => p.1 ≠ "others")) now
    hdisj hne
  have hnonneg : 0 ≤ (SearchIndexedFiles db storage [] 0 0 0 now).2
      - ((req.filter (fun p => p.1 ≠ "others")).map
          (fun p => (SearchIndexedFiles db storage p.2 0 0 0 now).2)).sum :=
    sub_nonneg.mpr hle
  refine ⟨?_, by ring, hnonneg⟩
  unfold GetStats
  rw [if_pos hothers]
  have hsnd : (((req.filter (fun p => p.1 ≠ "others")).map
      (fun p => (p.1, (SearchIndexedFiles db storage p.2 0 0 0 now).2))).map
        (fun p => p.2)).sum
      = ((req.filter (fun p => p.1 ≠ "others")).map
          (fun p => (SearchIndexedFiles db storage p.2 0 0 0 now).2)).sum := by
    rw [List.map_map]
    rfl
  rw [hsnd, max_eq_left hnonneg]

/-- Witness for C6's theorem: one indexed jpg file, one named group
{"jpg"} plus a requested "others": 1 + 0 = 1 and others is 0. -/
theorem getStats_others_additive_witness :
    GetStats [rowJpg 0] "s" [("img", ["jpg"]), ("others", [])] 0
      = [("img", 1), ("others", 0)]
    ∧ (1 : Int) + 0 = 1 := by
  have hd : List.Pairwise
      (fun p q : String × List String => ∀ x, x ∈ p.2.map lowerStr → x ∉ q.2.map lowerStr)
      ([("img", ["jpg"]), ("others", [])].filter (fun p => p.1 ≠ "others")) := by
    refine List.Pairwise.cons ?_ List.Pairwise.nil
    intro q hq
    cases hq
  have h := getStats_others_additive [rowJpg 0] "s" [("img", ["jpg"]), ("others", [])] 0
    hd (by decide) (by decide)
  exact ⟨h.1.trans (by decide), by decide⟩

/-- Counterexample to C6 as stated: the groups {} (empty) and {"jpg"} are
pairwise disjoint, yet the empty named group is counted as the full total
(its SQL gets no extension filter), so the named counts plus others exceed
the total: 1 + 1 + 0 = 2 but only one file is indexed. -/
theorem getStats_others_counterexample :
    GetStats [rowJpg 0] "s" [("a", []), ("b", ["jpg"]), ("others", [])] 0
      = [("a", 1), ("b", 1), ("others", 0)]
    ∧ (SearchIndexedFiles [rowJpg 0] "s" [] 0 0 0 0).2 = 1
    ∧ ((1 : Int) + 1) + 0 ≠ 1 := by
  refine ⟨by decide, by decide, by decide⟩

/-! ## The TTL read cache (filesystem_service getCache/setCache/
invalidateStorage/ListFiles and the mutating operations)

The cache map is an association list (keys are the format strings
"storage:path:showHidden" and "storage:recursive:showHidden"); time is an
Int second count.  ListFiles takes the would-be disk listing as an
argument (ReadDir's result), since only the cache logic is under test. -/

def cacheTTL : Int := 60

structure CacheEntry where
  files : List FileInfo
  timestamp : Int
deriving DecidableEq, Repr

def getCache (cache : List (String × CacheEntry)) (now : Int) (key : String) :
    Option (List FileInfo) :=
  match cache.find? (fun kv => kv.1 = key) with
  | none => none
  | some kv => if now - kv.2.timestamp > cacheTTL then none else some kv.2.files

def setCache (cache : List (String × CacheEntry)) (key : String)
    (files : List FileInfo) (now : Int) : List (String × CacheEntry) :=
  (key, { files := files, timestamp := now }) :: cache.filter (fun kv => kv.1 ≠ key)

/-- invalidateStorage's cache sweep: delete every key with prefix
"storage:" (the triggered reindex it also fires is modelled separately,
see the reindex definitions). -/
def invalidateStorage (cache : List (String × CacheEntry)) (storage : String) :
    List (String × CacheEntry) :=
  cache.filter (fun kv => !(strStarts kv.1 (storage ++ ":")))

def cacheKey (storage path : String) (showHidden : Bool) : String :=
  storage ++ ":" ++ (path ++ ":" ++ (if showHidden then "true" else "false"))

/-- ListFiles: serve a fresh cache hit, otherwise read from disk and fill
the cache.  Returns the listing and the updated cache. -/
def ListFiles (cache : List (String × CacheEntry)) (now : Int)
    (disk : List FileInfo) (storage path : String) (showHidden : Bool) :
    List FileInfo × List (String × CacheEntry) :=
  match getCache cache now (cacheKey storage path showHidden) with
  | some files => (files, cache)
  | none => (disk, setCache cache (cacheKey storage path showHidden) disk now)

/-- A mutating call (create folder, upload, rename/move, copy, duplicate,
delete): on driver success the storage's cache entries are invalidated. -/
def mutateStorage (cache : List (String × CacheEntry)) (storage : String)
    (driverOk : Bool) : List (String × CacheEntry) :=
  if driverOk then invalidateStorage cache storage else cache

theorem strStarts_append (a b : String) : strStarts (a ++ b) a = true := by
  unfold strStarts
  rw [String.data_append, List.isPrefixOf_iff_prefix]
  exact List.prefix_append a.data b.data

/-- C5 (amended): immediately after a successful mutating call on a storage,
no cache entry whose key was built from the same storage name string is
returned — regardless of its age, so even within the 60-second TTL — and the
next listing using that storage string recomputes from disk.  (Entries
recorded under a different capitalization of the storage name survive: see
the counterexample.) -/
theorem invalidate_clears_storage (cache : List (String × CacheEntry))
    (storage sfx : String) (now : Int) (disk : List FileInfo)
    (path : String) (showHidden : Bool) :
    getCache (mutateStorage cache storage true) now (storage ++ ":" ++ sfx) = none
    ∧ (ListFiles (mutateStorage cache storage true) now disk storage path
        showHidden).1 = disk := by
  have hclear : ∀ key, strStarts key (storage ++ ":") = true →
      getCache (mutateStorage cache storage true) now key = none := by
    intro key hkey
    unfold mutateStorage invalidateStorage getCache
    rw [if_pos rfl]
    cases hf : (cache.filter
        (fun kv => !(strStarts kv.1 (storage ++ ":")))).find? (fun kv => kv.1 = key) with
    | none => rfl
    | some kv =>
      have hmem := List.mem_of_find?_eq_some hf
      have hpred := List.find?_some hf
      have hkv : kv.1 = key := by simpa using hpred
      have hfilter := (List.mem_filter.mp hmem).2
      rw [hkv, hkey] at hfilter
      simp at hfilter
  constructor
  · exact hclear (storage ++ ":" ++ sfx) (strStarts_append (storage ++ ":") sfx)
  · unfold ListFiles
    rw [hclear (cacheKey storage path showHidden) (strStarts_append (storage ++ ":") _)]

/-- The cached listing of storage "A" under key "A:/:false". -/
def staleEntry : CacheEntry :=
  { files := [fiTxt], timestamp := 0 }

def cacheWithA : List (String × CacheEntry) := [(cacheKey "A" "/" false, staleEntry)]

/-- Counterexample to C5 as stated: storage names resolve case-insensitively
("a" and "A" are the same storage), but cache keys are built from the raw
string and invalidation matches on the raw prefix.  After a successful
mutation issued as "a", a listing of the same storage issued as "A" within
the TTL still returns the stale cached files instead of recomputing from
disk. -/
theorem invalidate_clears_storage_counterexample :
    getStorageRoot [("A", "/mnt/a")] "a" = .ok "/mnt/a"
    ∧ getStorageRoot [("A", "/mnt/a")] "A" = .ok "/mnt/a"
    ∧ (ListFiles (mutateStorage cacheWithA "a" true) 10 [] "A" "/" false).1 = [fiTxt]
    ∧ [fiTxt] ≠ ([] : List FileInfo) := by
  refine ⟨by decide, by decide, by decide, by decide⟩

/-! ## The recursive walker (driver ReadDirRecursive)

The disk is an inductive tree; a directory's children keep the walk
order.  ReadDirRecursive visits every entry below the root (root
excluded): when hidden entries are excluded and any component of the
entry's relative path is hidden, a directory is pruned with its whole
subtree and a file is skipped; project-junk files are skipped without
pruning; directories themselves are emitted as entries. -/

structure FsMeta where
  size : Int
  modified : Int
  mode : String
deriving DecidableEq, Repr

inductive FsNode where
  | file (name : String) (m : FsMeta) : FsNode
  | dir (name : String) (m : FsMeta) (children : List FsNode) : FsNode

/-- The relative path of an entry from its path components. -/
def relPathOf (parts : List String) : String := String.intercalate "/" parts

mutual
def walkNode (showHidden : Bool) (anc : List String) : FsNode → List FileInfo
  | .file name m =>
    if !showHidden && (anc ++ [name]).any isHiddenFile then []
    else if isProjectJunk name then []
    else [{ name := name, size := m.size, mode := m.mode, modTime := m.modified,
            isDir := false, extension := fileExt name, itemCount := 0,
            path := relPathOf (anc ++ [name]) }]
  | .dir name m children =>
    if !showHidden && (anc ++ [name]).any isHiddenFile then []
    else { name := name, size := m.size, mode := m.mode, modTime := m.modified,
           isDir := true, extension := fileExt name, itemCount := 0,
           path := relPathOf (anc ++ [name]) }
      :: walkKids showHidden (anc ++ [name]) children
def walkKids (showHidden : Bool) (anc : List String) : List FsNode → List FileInfo
  | [] => []
  | n :: ns => walkNode showHidden anc n ++ walkKids showHidden anc ns
end

def ReadDirRecursive (tree : List FsNode) (showHidden : Bool) : List FileInfo :=
  walkKids showHidden [] tree

/-- The reindex fired in the background by invalidateStorage after a
mutation: ReadDirRecursive(storage, true) then updateIndex. -/
def mutationReindex (db : List Row) (storage : String) (tree : List FsNode) :
    List Row :=
  updateIndex okTx db storage (ReadDirRecursive tree true)

/-- One storage's step of ReindexAll (startup and every 30 minutes):
ReadDirRecursive(st.Name, false) then updateIndex. -/
def periodicReindex (db : List Row) (storage : String) (tree : List FsNode) :
    List Row :=
  updateIndex okTx db storage (ReadDirRecursive tree false)

/-! The entries the periodic (hidden-excluding) walk indexes and search
then counts: files that are not project junk and have no hidden component
on their path. -/
mutual
def goodFileCount : FsNode → Nat
  | .file name _ => if isHiddenFile name || isProjectJunk name then 0 else 1
  | .dir name _ children => if isHiddenFile name then 0 else goodFileCountKids children
def goodFileCountKids : List FsNode → Nat
  | [] => 0
  | n :: ns => goodFileCount n + goodFileCountKids ns
end

/-! Modelled from the claim's words: the number of non-hidden,
non-directory entries reachable from the mount root (an entry counts when
neither it nor any ancestor directory is hidden). -/
mutual
def reachableFileCount : FsNode → Nat
  | .file name _ => if isHiddenFile name then 0 else 1
  | .dir name _ children => if isHiddenFile name then 0 else reachableFileCountKids children
def reachableFileCountKids : List FsNode → Nat
  | [] => 0
  | n :: ns => reachableFileCount n + reachableFileCountKids ns
end

def fsm : FsMeta := { size := 1, modified := 7, mode := "-rw-r--r--" }

example : walkKids false [] [FsNode.file "README" fsm] = [] := by decide
example : (walkKids true [] [FsNode.dir ".h" fsm [FsNode.file "a.jpg" fsm]]).length = 2 := by
  decide
example : walkKids false [] [FsNode.dir ".h" fsm [FsNode.file "a.jpg" fsm]] = [] := by decide

theorem updateIndex_ok (db : List Row) (st : String) (fs : List FileInfo) :
    updateIndex okTx db st fs
      = db.filter (fun r => r.storage ≠ st) ++ fs.map (toRow st) := by
  unfold updateIndex okTx
  simp

/-- A name that is not hidden cannot start with '.', '$' or '~'. -/
theorem notHidden_no_marks (name : String) (h : isHiddenFile name = false) :
    strStarts name "." = false ∧ strStarts name "$" = false
    ∧ strStarts name "~" = false := by
  unfold isHiddenFile at h
  unfold strStarts
  have hd : (("." : String)).data = ['.'] := rfl
  have hs : (("$" : String)).data = ['$'] := rfl
  have ht : (("~" : String)).data = ['~'] := rfl
  rw [hd, hs, ht]
  cases hn : name.data with
  | nil => exact ⟨rfl, rfl, rfl⟩
  | cons c rest =>
    rw [hn] at h
    simp only [Bool.or_eq_false_iff, decide_eq_false_iff_not] at h
    have h1 : c ≠ '.' := by tauto
    have h2 : c ≠ '$' := by tauto
    have h3 : c ≠ '~' := by tauto
    have hone : ∀ x : Char, c ≠ x → List.isPrefixOf [x] (c :: rest) = false := by
      intro x hx
      show (x == c && List.isPrefixOf [] rest) = false
      simp only [List.isPrefixOf, Bool.and_true]
      exact beq_false_of_ne (fun he => hx he.symm)
    exact ⟨hone '.' h1, hone '$' h2, hone '~' h3⟩

/-- The search predicate on a row built from a walked file entry: true
exactly for non-directory entries whose name is not hidden-marked; the
storage always matches, the extension set is empty and days is 0. -/
theorem searchPred_toRow_file (storage : String) (now : Int) (f : FileInfo)
    (hdir : f.isDir = false) (hname : isHiddenFile f.name = false) :
    searchPred storage [] 0 now (toRow storage f) = true := by
  obtain ⟨p1, p2, p3⟩ := notHidden_no_marks f.name hname
  unfold searchPred toRow
  simp [hdir, p1, p2, p3]

theorem searchPred_toRow_dir (storage : String) (now : Int) (f : FileInfo)
    (hdir : f.isDir = true) : searchPred storage [] 0 now (toRow storage f) = false := by
  unfold searchPred toRow
  simp [hdir]

mutual
theorem walkNode_count (storage : String) (now : Int) :
    ∀ (n : FsNode) (anc : List String), anc.any isHiddenFile = false →
      ((walkNode false anc n).filter
        (fun f => searchPred storage [] 0 now (toRow storage f))).length
        = goodFileCount n
  | .file name m, anc, hanc => by
    have hany : (anc ++ [name]).any isHiddenFile = isHiddenFile name := by
      simp [List.any_append, hanc]
    by_cases hh : isHiddenFile name = true
    · simp [walkNode, hany, hh, goodFileCount]
    · have hh' : isHiddenFile name = false := by simpa using hh
      by_cases hj : isProjectJunk name = true
      · simp [walkNode, hany, hh', hj, goodFileCount]
      · have hj' : isProjectJunk name = false := by simpa using hj
        have hpred := searchPred_toRow_file storage now
          { name := name, size := m.size, mode := m.mode, modTime := m.modified,
            isDir := false, extension := fileExt name, itemCount := 0,
            path := relPathOf (anc ++ [name]) } rfl hh'
        simp [walkNode, hany, hh', hj', goodFileCount, List.filter_cons, hpred]
  | .dir name m children, anc, hanc => by
    have hany : (anc ++ [name]).any isHiddenFile = isHiddenFile name := by
      simp [List.any_append, hanc]
    by_cases hh : isHiddenFile name = true
    · simp [walkNode, hany, hh, goodFileCount]
    · have hh' : isHiddenFile name = false := by simpa using hh
      have hanc' : (anc ++ [name]).any isHiddenFile = false := hany.trans hh'
      have hpred := searchPred_toRow_dir storage now
        { name := name, size := m.size, mode := m.mode, modTime := m.modified,
          isDir := true, extension := fileExt name, itemCount := 0,
          path := relPathOf (anc ++ [name]) } rfl
      have hk := walkKids_count storage now children (anc ++ [name]) hanc'
      simp [walkNode, hany, hh', goodFileCount, List.filter_cons, hpred, hk]
theorem walkKids_count (storage : String) (now : Int) :
    ∀ (ns : List FsNode) (anc : List String), anc.any isHiddenFile = false →
      ((walkKids false anc ns).filter
        (fun f => searchPred storage [] 0 now (toRow storage f))).length
        = goodFileCountKids ns
  | [], _, _ => by simp [walkKids, goodFileCountKids]
  | n :: ns, anc, hanc => by
    have h1 := walkNode_count storage now n anc hanc
    have h2 := walkKids_count storage now ns anc hanc
    simp [walkKids, goodFileCountKids, List.filter_append, h1, h2]
end

/-- C4 (amended): after a full periodic reindex of a storage, the search
total with no filters equals the number of non-hidden, NON-PROJECT-JUNK,
non-directory entries reachable from the mount root (the walker excludes
project-junk files from the index, so plain non-hidden files such as
README or *.go are not counted). -/
theorem periodic_reindex_search_total (db : List Row) (storage : String)
    (tree : List FsNode) (now : Int) :
    (SearchIndexedFiles (periodicReindex db storage tree) storage [] 0 0 0 now).2
      = (goodFileCountKids tree : Int) := by
  rw [search_count]
  have hnat : ((periodicReindex db storage tree).filter
      (searchPred storage [] 0 now)).length = goodFileCountKids tree := by
    unfold periodicReindex ReadDirRecursive
    rw [updateIndex_ok, List.filter_append]
    have hkept : (db.filter (fun r => r.storage ≠ storage)).filter
        (searchPred storage [] 0 now) = [] := by
      apply List.filter_eq_nil_iff.mpr
      intro r hr
      have hne : ¬(r.storage = storage) := by
        have := (List.mem_filter.mp hr).2
        simpa using this
      simp [searchPred, hne]
    rw [hkept, List.nil_append, List.filter_map, List.length_map]
    have hw := walkKids_count storage now tree [] rfl
    simpa [Function.comp] using hw
  exact_mod_cast hnat

/-- Counterexample to C4 as stated: a storage containing the single plain
file README (non-hidden, non-directory, reachable) reindexes to an index
whose unfiltered search total is 0, because README is project junk and the
walker omits it; the claim's count is 1. -/
theorem periodic_reindex_counterexample :
    (SearchIndexedFiles (periodicReindex [] "s" [FsNode.file "README" fsm])
      "s" [] 0 0 0 0).2 = 0
    ∧ reachableFileCountKids [FsNode.file "README" fsm] = 1 := by
  refine ⟨by decide, by decide⟩

/-! ## C9: the mutation-triggered walk includes hidden entries, the
periodic walk excludes them.

invalidateStorage's background reindex calls ReadDirRecursive(storage,
true) while ReindexAll calls ReadDirRecursive(st.Name, false); the two
differ on any storage holding a file under a hidden (or denylisted)
directory, because the hidden directory and its subtree are indexed by
the former and pruned by the latter. -/

mutual
def hasAnyFileNode : FsNode → Bool
  | .file _ _ => true
  | .dir _ _ children => hasAnyFileKids children
def hasAnyFileKids : List FsNode → Bool
  | [] => false
  | n :: ns => hasAnyFileNode n || hasAnyFileKids ns
end

mutual
def hasFileUnderHiddenDir : FsNode → Bool
  | .file _ _ => false
  | .dir name _ children =>
    (isHiddenFile name && hasAnyFileKids children) || hasFileUnderHiddenDirKids children
def hasFileUnderHiddenDirKids : List FsNode → Bool
  | [] => false
  | n :: ns => hasFileUnderHiddenDir n || hasFileUnderHiddenDirKids ns
end

mutual
theorem walkNode_len_le :
    ∀ (n : FsNode) (anc : List String),
      (walkNode false anc n).length ≤ (walkNode true anc n).length
  | .file name m, anc => by
    by_cases hh : (anc ++ [name]).any isHiddenFile = true
    · simp [walkNode, hh]
    · have hh' : (anc ++ [name]).any isHiddenFile = false := by simpa using hh
      simp [walkNode, hh']
  | .dir name m children, anc => by
    have hk := walkKids_len_le children (anc ++ [name])
    by_cases hh : (anc ++ [name]).any isHiddenFile = true
    · simp [walkNode, hh]
    · have hh' : (anc ++ [name]).any isHiddenFile = false := by simpa using hh
      simp [walkNode, hh']
      omega
theorem walkKids_len_le :
    ∀ (ns : List FsNode) (anc : List String),
      (walkKids false anc ns).length ≤ (walkKids true anc ns).length
  | [], _ => le_refl _
  | n :: ns, anc => by
    have h1 := walkNode_len_le n anc
    have h2 := walkKids_len_le ns anc
    simp only [walkKids, List.length_append]
    omega
end

mutual
theorem walkNode_len_lt :
    ∀ (n : FsNode) (anc : List String), hasFileUnderHiddenDir n = true →
      (walkNode false anc n).length < (walkNode true anc n).length
  | .file _ _, _, h => by simp [hasFileUnderHiddenDir] at h
  | .dir name m children, anc, h => by
    by_cases hh : (anc ++ [name]).any isHiddenFile = true
    · have hz : (walkNode false anc (.dir name m children)).length = 0 := by
        simp [walkNode, hh]
      have hp : 0 < (walkNode true anc (.dir name m children)).length := by
        simp [walkNode]
      omega
    · have hh' : (anc ++ [name]).any isHiddenFile = false := by simpa using hh
      have hname : isHiddenFile name = false := by
        by_contra hcon
        have hcon' : isHiddenFile name = true := by simpa using hcon
        have htrue : (anc ++ [name]).any isHiddenFile = true := by
          simp [List.any_append, hcon']
        rw [htrue] at hh'
        exact Bool.noConfusion hh'
      have hkids : hasFileUnderHiddenDirKids children = true := by
        simp only [hasFileUnderHiddenDir, hname, Bool.false_and, Bool.false_or] at h
        exact h
      have hlt := walkKids_len_lt children (anc ++ [name]) hkids
      simp [walkNode, hh']
      omega
theorem walkKids_len_lt :
    ∀ (ns : List FsNode) (anc : List String), hasFileUnderHiddenDirKids ns = true →
      (walkKids false anc ns).length < (walkKids true anc ns).length
  | [], _, h => by simp [hasFileUnderHiddenDirKids] at h
  | n :: ns, anc, h => by
    simp only [hasFileUnderHiddenDirKids, Bool.or_eq_true] at h
    simp only [walkKids, List.length_append]
    rcases h with h | h
    · have h1 := walkNode_len_lt n anc h
      have h2 := walkKids_len_le ns anc
      omega
    · have h1 := walkNode_len_le n anc
      have h2 := walkKids_len_lt ns anc h
      omega
end

/-- C9: the reindex triggered by a mutation walks with hidden entries
included (showHidden = true; see mutationReindex, transcribing
invalidateStorage's background call) while the startup/periodic reindex
walks with hidden entries excluded (showHidden = false; see
periodicReindex, transcribing ReindexAll); consequently, for any storage
containing a file under a hidden or denylisted directory, the index rows
after a mutation-triggered rebuild differ from the rows after a periodic
rebuild of the same disk state. -/
theorem mutation_vs_periodic_reindex (db : List Row) (storage : String)
    (tree : List FsNode) (h : hasFileUnderHiddenDirKids tree = true) :
    mutationReindex db storage tree ≠ periodicReindex db storage tree := by
  intro he
  have hlen := congrArg List.length he
  unfold mutationReindex periodicReindex ReadDirRecursive at hlen
  rw [updateIndex_ok, updateIndex_ok, List.length_append, List.length_append,
    List.length_map, List.length_map] at hlen
  have hlt := walkKids_len_lt tree [] h
  omega

/-- A storage whose hidden directory ".h" holds a file. -/
def treeHidden : List FsNode := [FsNode.dir ".h" fsm [FsNode.file "a.jpg" fsm]]

/-- Witness for C9's theorem at a concrete tree. -/
theorem mutation_vs_periodic_reindex_witness :
    mutationReindex [] "s" treeHidden ≠ periodicReindex [] "s" treeHidden :=
  mutation_vs_periodic_reindex [] "s" treeHidden (by decide)

/-! ## C8: extensions on FileEntry versus extensions in the index

ReadDir (the concurrent lister) and ReadDirRecursive set
Extension := filepath.Ext(name) verbatim (leading dot, original case);
only updateIndex strips the dot and lowercases before inserting.  The
lister's output order is the completion order of the parallel stats;
membership is modelled in directory order, which is enough for the
per-entry extension property.  A failing stat drops the entry. -/

structure DirEnt where
  name : String
  isDir : Bool
  size : Int
  modified : Int
  mode : String
  childCount : Int
  statFails : Bool
deriving DecidableEq, Repr

def ReadDir (entries : List DirEnt) (subPath : String) (showHidden : Bool) :
    List FileInfo :=
  entries.filterMap (fun e =>
    if !showHidden && isHiddenFile e.name then none
    else if e.statFails then none
    else some { name := e.name, size := e.size, mode := e.mode,
                modTime := e.modified, isDir := e.isDir,
                extension := fileExt e.name,
                itemCount := if e.isDir then e.childCount else 0,
                path := goJoin subPath e.name })

theorem char_toNat_ofNatAux (n : Nat) (h : n.isValidChar) :
    (Char.ofNatAux n h).toNat = n := rfl

theorem char_toNat_ofNat {n : Nat} (h : n.isValidChar) : (Char.ofNat n).toNat = n := by
  unfold Char.ofNat
  rw [dif_pos h]
  exact char_toNat_ofNatAux n h

/-- Lowercasing never yields an ASCII uppercase letter. -/
theorem toLower_not_ascii_upper (c : Char) :
    ¬(65 ≤ (Char.toLower c).toNat ∧ (Char.toLower c).toNat ≤ 90) := by
  unfold Char.toLower
  by_cases h : c.toNat ≥ 65 ∧ c.toNat ≤ 90
  · rw [if_pos h]
    have hv : (c.toNat + 32).isValidChar := Or.inl (by omega)
    rw [char_toNat_ofNat hv]
    omega
  · rw [if_neg h]
    omega

/-- Lowercasing maps only letters, so it cannot produce a dot. -/
theorem toLower_ne_dot (c : Char) (h : c ≠ '.') : Char.toLower c ≠ '.' := by
  unfold Char.toLower
  by_cases hr : c.toNat ≥ 65 ∧ c.toNat ≤ 90
  · rw [if_pos hr]
    intro he
    have hv : (c.toNat + 32).isValidChar := Or.inl (by omega)
    have := congrArg Char.toNat he
    rw [char_toNat_ofNat hv] at this
    have hdot : ('.').toNat = 46 := rfl
    rw [hdot] at this
    omega
  · rw [if_neg hr]
    exact h

/-- filepath.Ext returns either the empty string or a dot followed by
dot-free characters. -/
theorem fileExt_shape (name : String) :
    fileExt name = "" ∨ ∃ l : List Char, (fileExt name).data = '.' :: l ∧ '.' ∉ l := by
  unfold fileExt
  by_cases h : (name.data.reverse.takeWhile (fun c => c ≠ '.')).length
      = name.data.length
  · rw [if_pos h]
    exact Or.inl rfl
  · rw [if_neg h]
    refine Or.inr ⟨(name.data.reverse.takeWhile (fun c => c ≠ '.')).reverse, rfl, ?_⟩
    intro hm
    have := List.mem_takeWhile_imp (List.mem_reverse.mp hm)
    simp at this

theorem noDot_strStarts (l : List Char) (h : '.' ∉ l) :
    strStarts (String.mk (l.map Char.toLower)) "." = false := by
  unfold strStarts
  have hd : (("." : String)).data = ['.'] := rfl
  rw [hd]
  cases l with
  | nil => rfl
  | cons c t =>
    have hc : c ≠ '.' := fun he => h (he ▸ List.mem_cons_self c t)
    show ('.' == Char.toLower c && List.isPrefixOf [] (t.map Char.toLower)) = false
    simp only [List.isPrefixOf, Bool.and_true]
    exact beq_false_of_ne (fun he => toLower_ne_dot c hc he.symm)

/-- The dot stripping, evaluated on a dotted extension. -/
theorem stripDot_eval (s : String) (l : List Char) (h : s.data = '.' :: l) :
    stripDot s = String.mk l := by
  unfold stripDot
  rw [h]
  show (if ('.' : Char) = '.' then String.mk l else s) = String.mk l
  rw [if_pos rfl]

theorem stripDot_empty (s : String) (h : s.data = []) : stripDot s = s := by
  unfold stripDot
  rw [h]

mutual
theorem walkNode_ext :
    ∀ (sh : Bool) (anc : List String) (n : FsNode),
      ∀ e ∈ walkNode sh anc n, e.extension = fileExt e.name
  | sh, anc, .file name m => by
    intro e he
    simp only [walkNode] at he
    by_cases h1 : !sh && (anc ++ [name]).any isHiddenFile
    · rw [if_pos h1] at he
      simp at he
    · rw [if_neg h1] at he
      by_cases h2 : isProjectJunk name
      · rw [if_pos h2] at he
        simp at he
      · rw [if_neg h2] at he
        have : e = { name := name, size := m.size, mode := m.mode,
                     modTime := m.modified, isDir := false,
                     extension := fileExt name, itemCount := 0,
                     path := relPathOf (anc ++ [name]) } := by
          simpa using he
        subst this
        rfl
  | sh, anc, .dir name m children => by
    intro e he
    simp only [walkNode] at he
    by_cases h1 : !sh && (anc ++ [name]).any isHiddenFile
    · rw [if_pos h1] at he
      simp at he
    · rw [if_neg h1] at he
      rcases List.mem_cons.mp he with h | h
      · subst h
        rfl
      · exact walkKids_ext sh (anc ++ [name]) children e h
theorem walkKids_ext :
    ∀ (sh : Bool) (anc : List String) (ns : List FsNode),
      ∀ e ∈ walkKids sh anc ns, e.extension = fileExt e.name
  | _, _, [] => by
    intro e he
    simp [walkKids] at he
  | sh, anc, n :: ns => by
    intro e he
    simp only [walkKids] at he
    rcases List.mem_append.mp he with h | h
    · exact walkNode_ext sh anc n e h
    · exact walkKids_ext sh anc ns e h
end

/-- C8 (amended): every FileEntry produced by the lister and the walker
carries filepath.Ext(name) verbatim — possibly with a leading dot and
uppercase letters — and it is the rows written to the index by updateIndex
whose extension is lowercase (no ASCII uppercase letter) with no leading
dot. -/
theorem entry_ext_raw_index_ext_lowered :
    (∀ (entries : List DirEnt) (subPath : String) (sh : Bool),
      ∀ e ∈ ReadDir entries subPath sh, e.extension = fileExt e.name)
    ∧ (∀ (sh : Bool) (t : List FsNode),
        ∀ e ∈ ReadDirRecursive t sh, e.extension = fileExt e.name)
    ∧ (∀ (db : List Row) (storage : String) (t : List FsNode) (sh : Bool),
        ∀ r ∈ updateIndex okTx db storage (ReadDirRecursive t sh),
          r.storage = storage →
            strStarts r.extension "." = false
            ∧ ∀ c ∈ r.extension.data, ¬(65 ≤ c.toNat ∧ c.toNat ≤ 90)) := by
  refine ⟨?_, ?_, ?_⟩
  · intro entries subPath sh e he
    obtain ⟨d, _, hfd⟩ := List.mem_filterMap.mp he
    by_cases h1 : !sh && isHiddenFile d.name
    · rw [if_pos h1] at hfd
      simp at hfd
    · rw [if_neg h1] at hfd
      by_cases h2 : d.statFails
      · rw [if_pos h2] at hfd
        simp at hfd
      · rw [if_neg h2] at hfd
        have : e = { name := d.name, size := d.size, mode := d.mode,
                     modTime := d.modified, isDir := d.isDir,
                     extension := fileExt d.name,
                     itemCount := if d.isDir then d.childCount else 0,
                     path := goJoin subPath d.name } := by
          simpa using hfd.symm
        subst this
        rfl
  · intro sh t e he
    exact walkKids_ext sh [] t e he
  · intro db storage t sh r hr hst
    rw [updateIndex_ok] at hr
    rcases List.mem_append.mp hr with h | h
    · exfalso
      have := (List.mem_filter.mp h).2
      rw [hst] at this
      simp at this
    · obtain ⟨f, hf, rfl⟩ := List.mem_map.mp h
      have hext : f.extension = fileExt f.name := walkKids_ext sh [] t f hf
      rcases fileExt_shape f.name with hsh | ⟨l, hl, hnd⟩
      · have hempty : f.extension.data = [] := by
          rw [hext, hsh]
        have hre : (toRow storage f).extension = "" := by
          show lowerStr (stripDot f.extension) = ""
          rw [stripDot_empty f.extension hempty, hext, hsh]
          rfl
        rw [hre]
        exact ⟨rfl, by intro c hc; simp at hc⟩
      · have hdata : f.extension.data = '.' :: l := by
          rw [hext]
          exact hl
        have hre : (toRow storage f).extension = lowerStr (String.mk l) := by
          show lowerStr (stripDot f.extension) = lowerStr (String.mk l)
          rw [stripDot_eval f.extension l hdata]
        rw [hre]
        refine ⟨noDot_strStarts l hnd, ?_⟩
        intro c hc
        have hcm : c ∈ l.map Char.toLower := hc
        obtain ⟨c0, _, rfl⟩ := List.mem_map.mp hcm
        exact toLower_not_ascii_upper c0

def entJpg : DirEnt :=
  { name := "photo.JPG", isDir := false, size := 1, modified := 0, mode := "",
    childCount := 0, statFails := false }

/-- Counterexample to C8 as stated: listing a directory holding photo.JPG
produces a FileEntry whose extension is ".JPG" — it has a leading dot and
is not lowercase. -/
theorem entry_ext_counterexample :
    (ReadDir [entJpg] "/" true).map (fun e => e.extension) = [".JPG"]
    ∧ strStarts ".JPG" "." = true
    ∧ lowerStr ".JPG" ≠ ".JPG" := by
  refine ⟨by decide, by decide, by decide⟩

def treeJpg : List FsNode := [FsNode.file "a.JPG" fsm]

def rowAJpg : Row :=
  toRow "s" { name := "a.JPG", size := 1, mode := "-rw-r--r--", modTime := 7,
              isDir := false, extension := ".JPG", itemCount := 0, path := "a.JPG" }

/-- Witness for C8's theorem: the index row for a.JPG carries extension
without a leading dot and without uppercase letters. -/
theorem entry_ext_raw_index_ext_lowered_witness :
    strStarts rowAJpg.extension "." = false
    ∧ ∀ c ∈ rowAJpg.extension.data, ¬(65 ≤ c.toNat ∧ c.toNat ≤ 90) :=
  (entry_ext_raw_index_ext_lowered).2.2 [] "s" treeJpg true rowAJpg
    (by decide) (by decide)

example : rowAJpg.extension = "jpg" := by decide

/-! ## C7: duplicate target naming (filesystem_service Duplicate)

Duplicate splits the source subpath with filepath.Dir/Base/Ext, trims the
extension off the base, and proposes dir/(base_copy)(ext); while the
proposed sibling exists on disk (checked via GetRealPath + os.Stat), it
proposes dir/(base_copy_counter)(ext) with counter = 1, 2, ....  The set
of existing files is the finite list of their real (resolved) paths;
subpaths are rooted at the storage root, as the API supplies them. -/

/-- filepath.Dir for a rooted subpath: all but the last segment. -/
def fDir (s : String) : String := mkAbs ((resolveDots (rawSegs s)).dropLast)

/-- filepath.Base for a rooted subpath: the last segment ("/" if none). -/
def fBase (s : String) : String :=
  match (resolveDots (rawSegs s)).getLast? with
  | some g => String.mk g
  | none => "/"

/-- strings.TrimSuffix. -/
def trimSfx (s t : String) : String :=
  if t.data.isSuffixOf s.data then String.mk (s.data.take (s.data.length - t.data.length))
  else s

/-- GetRealPath with its error ignored, as Duplicate calls it:
the resolved path on success, "" on failure. -/
def realOf (mounts : List (String × String)) (storage p : String) : String :=
  match validatePath mounts storage p with
  | .ok rp => rp
  | .error _ => ""

/-- The k-th proposed name: _copy for k = 0, then _copy_1, _copy_2, .... -/
def candAt (dir base ext : String) : Nat → String
  | 0 => goJoin dir (base ++ "_copy" ++ ext)
  | Nat.succ k => goJoin dir (base ++ "_copy_" ++ Nat.repr (k + 1) ++ ext)

/-- The existence-check loop of Duplicate.  The Go loop is unbounded; the
fuel exceeds the number of existing paths, so the first non-existing
candidate is always reached within it (candidate names are pairwise
distinct). -/
def dupLoop (ex : List String) (mounts : List (String × String))
    (storage dir base ext : String) : Nat → Nat → String → String
  | counter, fuel, cur =>
    if !(ex.contains (realOf mounts storage cur)) then cur
    else
      match fuel with
      | 0 => cur
      | fuel' + 1 =>
        dupLoop ex mounts storage dir base ext (counter + 1) fuel'
          (candAt dir base ext counter)

def duplicateTarget (ex : List String) (mounts : List (String × String))
    (storage srcPath : String) : String :=
  let dir := fDir srcPath
  let base := fBase srcPath
  let ext := fileExt base
  let nameWithoutExt := trimSfx base ext
  dupLoop ex mounts storage dir nameWithoutExt ext 1 (ex.length + 1)
    (candAt dir nameWithoutExt ext 0)

theorem dupLoop_first_free (ex : List String) (mounts : List (String × String))
    (storage dir base ext : String) (j : Nat)
    (h1 : ex.contains (realOf mounts storage (candAt dir base ext j)) = false)
    (h2 : ∀ i < j, ex.contains (realOf mounts storage (candAt dir base ext i)) = true) :
    ∀ (fuel k : Nat), k ≤ j → j ≤ k + fuel →
      dupLoop ex mounts storage dir base ext (k + 1) fuel (candAt dir base ext k)
        = candAt dir base ext j := by
  intro fuel
  induction fuel with
  | zero =>
    intro k hk hjk
    have hkj : j = k := by omega
    subst hkj
    unfold dupLoop
    rw [h1]
    rfl
  | succ fuel ih =>
    intro k hk hjk
    by_cases hkj : k = j
    · subst hkj
      unfold dupLoop
      rw [h1]
      rfl
    · have hklt : k < j := lt_of_le_of_ne hk hkj
      have hc := h2 k hklt
      show dupLoop ex mounts storage dir base ext (k + 1) (fuel + 1)
        (candAt dir base ext k) = candAt dir base ext j
      unfold dupLoop
      rw [hc]
      show dupLoop ex mounts storage dir base ext (k + 1 + 1) fuel
        (candAt dir base ext (k + 1)) = candAt dir base ext j
      exact ih (k + 1) hklt (by omega)

/-- C7: duplicate derives the target by proposing base_copy, then
base_copy_1, base_copy_2, ..., and picks the first candidate whose
resolved sibling path does not already exist (j here is that first free
index; the bound j ≤ |existing| + 1 holds because the candidates are
pairwise distinct names). -/
theorem duplicateTarget_first_free (ex : List String)
    (mounts : List (String × String)) (storage srcPath : String) (j : Nat)
    (h1 : ex.contains (realOf mounts storage
      (candAt (fDir srcPath) (trimSfx (fBase srcPath) (fileExt (fBase srcPath)))
        (fileExt (fBase srcPath)) j)) = false)
    (h2 : ∀ i < j, ex.contains (realOf mounts storage
      (candAt (fDir srcPath) (trimSfx (fBase srcPath) (fileExt (fBase srcPath)))
        (fileExt (fBase srcPath)) i)) = true)
    (h3 : j ≤ ex.length + 1) :
    duplicateTarget ex mounts storage srcPath
      = candAt (fDir srcPath) (trimSfx (fBase srcPath) (fileExt (fBase srcPath)))
          (fileExt (fBase srcPath)) j := by
  unfold duplicateTarget
  have h := dupLoop_first_free ex mounts storage (fDir srcPath)
    (trimSfx (fBase srcPath) (fileExt (fBase srcPath))) (fileExt (fBase srcPath)) j
    h1 h2 (ex.length + 1) 0 (Nat.zero_le j) (by omega)
  exact h

def mountsDup : List (String × String) := [("a", "/mnt/a")]

def exDup : List String := ["/mnt/a/docs/report.txt", "/mnt/a/docs/report_copy.txt"]

/-- Witness for C7's theorem, which is also the claim's scenario: with
/docs/report.txt and /docs/report_copy.txt existing and
/docs/report_copy_1.txt free, duplicate targets /docs/report_copy_1.txt. -/
theorem duplicateTarget_first_free_witness :
    duplicateTarget exDup mountsDup "a" "/docs/report.txt"
      = "/docs/report_copy_1.txt" := by
  have h := duplicateTarget_first_free exDup mountsDup "a" "/docs/report.txt" 1
    (by decide) (by decide) (by decide)
  rw [h]
  decide
